import Mathlib

/-!
Verification of the `project-uninit` Rust crate (field projection into
`MaybeUninit` aggregates) against its natural-language specification.

Shallow embedding choices, all translated from the crate's source:

* A field-access token (field name or tuple index) is modelled as a `Nat`;
  a field path (`$($props)=>+` in the macros) is a `List Nat`.  The macros
  compare paths token by token, which coincides with component-wise
  comparison of these lists.
* The conflict checker `__assert_unique` / `__assert_not_from_self`
  (src/assert_unique.rs) is modelled as a function returning the list of
  `compile_error!` messages it emits, in emission order.  An empty list
  means compilation succeeds; a non-empty list models a compile failure.
* An aggregate type is a layout tree `Ty`: a primitive of a given byte
  size, or an aggregate whose fields are laid out sequentially.  The
  address arithmetic of `addr_of!((*ptr).$($props).+)` is modelled by
  `offsetOf`, which never inspects memory contents.
* Memory is `Mem := Nat → Nat` (byte value at each address).  A typed
  value is a `Val` tree; `Val.encode` gives its byte image, and
  `ptr::write` is modelled by `writeBytes` — a raw store that overwrites
  the destination bytes without reading them (there are no destructors in
  the model, matching the non-dropping store).
* The four macro families are modelled by `project_uninit`,
  `project_uninit_mut`, `partial_init`, `project_ptr` / `project_ptr_mut`;
  a `.error` result models a compile-time failure (conflict or type
  error), in which case no runtime effect (in particular no write)
  happens — the error constructor carries no memory.
-/

/-- A single accessor token (field name or tuple index), by number. -/
abbrev Token := Nat

/-- A symbolic field-access path: the token sequence of `$($props)=>+`. -/
abbrev FieldPath := List Token

/-- The two `compile_error!` shapes of `__fail_if_starts_with` in
src/assert_unique.rs: a repeated path, or a nested ancestor/descendant
pair (the error text names both paths). -/
inductive ConflictError where
  | duplicateField (path : FieldPath)
  | nestedFieldConflict (ancestor descendant : FieldPath)
deriving DecidableEq

/-- The inner `__fail_if_starts_with!` macro generated by
`__assert_not_from_self!` for path `a`, applied to one candidate token
sequence `b`: its first arm fires when `b` equals `a` (duplicate), its
second arm when `b` is `a` followed by at least one more token (nested),
and its final arm accepts anything else. -/
def failIfStartsWith (a b : FieldPath) : Option ConflictError :=
  if b = a then some (ConflictError.duplicateField a)
  else if a <+: b then some (ConflictError.nestedFieldConflict a b)
  else none

/-- Model of `__assert_not_from_self!($head, a, [bs])`: runs `__fail_if_starts_with!`
on every candidate in `bs`, collecting each emitted error in order. -/
def __assert_not_from_self (a : FieldPath) (bs : List FieldPath) : List ConflictError :=
  bs.filterMap (failIfStartsWith a)

/-- Model of `__assert_unique!(@inner $head, current, [prev], [next])`: tests
`current` against every other path (`prev ++ next`), then moves on with
the head of `next` as the new current. -/
def __assert_unique_inner (current : FieldPath) (prev next : List FieldPath) :
    List ConflictError :=
  match next with
  | n :: rest =>
    __assert_not_from_self current (prev ++ n :: rest) ++
      __assert_unique_inner n (prev ++ [current]) rest
  | [] => __assert_not_from_self current prev

/-- Model of `__assert_unique!($head, [paths])`: at most one path passes with no
check; two or more enter the `@inner` scan. -/
def __assert_unique (paths : List FieldPath) : List ConflictError :=
  match paths with
  | first :: next :: rest => __assert_unique_inner first [] (next :: rest)
  | _ => []

/-- Aggregate layout: a primitive of a fixed byte size, or an aggregate
whose fields are laid out sequentially in declaration order. -/
inductive Ty where
  | prim (size : Nat)
  | agg (fields : List Ty)

mutual

/-- Byte size of a type: primitives have their declared size, aggregates
the sum of their fields' sizes. -/
def Ty.size : Ty → Nat
  | .prim n => n
  | .agg fs => Ty.sizeList fs

/-- Total byte size of a field list. -/
def Ty.sizeList : List Ty → Nat
  | [] => 0
  | t :: ts => Ty.size t + Ty.sizeList ts

end

mutual

/-- Offset resolution `offsetOf t p`: byte offset and type of the field reached from `t`
by path `p`, the model of `addr_of!((*ptr).$($props).+)` — pure address
arithmetic over the layout, never touching memory.  `none` models the
Rust type error for a path that names no field. -/
def offsetOf : Ty → FieldPath → Option (Nat × Ty)
  | t, [] => some (0, t)
  | .prim _, _ :: _ => none
  | .agg fs, i :: p => offsetOfAt fs i p

/-- Offset of path `p` under the `i`-th field of the field list `fs`,
relative to the start of `fs`. -/
def offsetOfAt : List Ty → Nat → FieldPath → Option (Nat × Ty)
  | [], _, _ => none
  | t :: _, 0, p => offsetOf t p
  | t :: ts, i + 1, p =>
    match offsetOfAt ts i p with
    | some (o, u) => some (Ty.size t + o, u)
    | none => none

end

/-- A typed runtime value, as a tree matching the layout tree. -/
inductive Val where
  | prim (bytes : List Nat)
  | agg (fields : List Val)

mutual

/-- Byte image of a value: fields are concatenated in declaration order,
matching the sequential layout used by `Ty.size` / `offsetOf`. -/
def Val.encode : Val → List Nat
  | .prim bs => bs
  | .agg vs => Val.encodeList vs

/-- Byte image of a field list. -/
def Val.encodeList : List Val → List Nat
  | [] => []
  | v :: vs => Val.encode v ++ Val.encodeList vs

end

mutual

/-- Typing check `hasTy v t`: `v` is a value of layout `t` (models Rust's static
typing of the assigned value against the field's type). -/
def hasTy : Val → Ty → Bool
  | .prim bs, .prim n => bs.length = n
  | .agg vs, .agg ts => hasTyList vs ts
  | .prim _, .agg _ => false
  | .agg _, .prim _ => false

/-- Field-wise typing of a value list against a field list. -/
def hasTyList : List Val → List Ty → Bool
  | [], [] => true
  | v :: vs, t :: ts => hasTy v t && hasTyList vs ts
  | [], _ :: _ => false
  | _ :: _, [] => false

end

/-- Byte-addressed memory. -/
def Mem := Nat → Nat

/-- Model of `ptr::write` of a byte string at an offset: a raw, non-dropping
store.  The previous bytes are overwritten without being read (the
result at a written address does not mention the old memory). -/
def writeBytes : Mem → Nat → List Nat → Mem
  | m, _, [] => m
  | m, off, b :: bs => fun a => if a = off then b else writeBytes m (off + 1) bs a

/-- Read `n` bytes starting at `off` (the observation made by reading
through a returned reference). -/
def readBytes : Mem → Nat → Nat → List Nat
  | _, _, 0 => []
  | m, off, n + 1 => m off :: readBytes m (off + 1) n

/-- A statically-decided failure: `conflicts` models the set of
`compile_error!`s emitted by the checker (src/assert_unique.rs);
`typeError` models a Rust type error (nonexistent field path or
ill-typed value).  An `Except.error` result carries no memory — the
program never runs, so in particular no write occurs. -/
inductive StaticError where
  | conflicts (errors : List ConflictError)
  | typeError
deriving DecidableEq

/-- Resolve each path of a call to the address of its field
(`base` is the address of the aggregate), left to right. -/
def resolveAddrs (t : Ty) (base : Nat) : List FieldPath → Except StaticError (List Nat)
  | [] => Except.ok []
  | p :: rest =>
    match offsetOf t p with
    | none => Except.error StaticError.typeError
    | some (o, _) =>
      match resolveAddrs t base rest with
      | Except.ok hs => Except.ok ((base + o) :: hs)
      | Except.error e => Except.error e

/-- Model of `project_uninit!` (src/project.rs, multi-field arm): shared
projection.  No conflict check is invoked; each path is turned into the
address of its field; memory is neither read nor written (the input
memory is returned unchanged and the addresses do not depend on it). -/
def project_uninit (t : Ty) (base : Nat) (m : Mem) (paths : List FieldPath) :
    Except StaticError (Mem × List Nat) :=
  match resolveAddrs t base paths with
  | Except.ok hs => Except.ok (m, hs)
  | Except.error e => Except.error e

/-- Model of `project_uninit_mut!` (src/project.rs, multi-field arm): exclusive
projection.  `__assert_unique!` runs first; any emitted errors abort
compilation, otherwise each path becomes the address of its field. -/
def project_uninit_mut (t : Ty) (base : Nat) (m : Mem) (paths : List FieldPath) :
    Except StaticError (Mem × List Nat) :=
  match __assert_unique paths with
  | [] =>
    match resolveAddrs t base paths with
    | Except.ok hs => Except.ok (m, hs)
    | Except.error e => Except.error e
  | es => Except.error (StaticError.conflicts es)

/-- Model of `project_ptr!` (src/project.rs): raw pointer projection, no
conflict check, no lifetime — pure address arithmetic. -/
def project_ptr (t : Ty) (base : Nat) (paths : List FieldPath) :
    Except StaticError (List Nat) :=
  resolveAddrs t base paths

/-- Model of `project_ptr_mut!` (src/project.rs): same address computation as
`project_ptr!`, for mutable raw pointers. -/
def project_ptr_mut (t : Ty) (base : Nat) (paths : List FieldPath) :
    Except StaticError (List Nat) :=
  resolveAddrs t base paths

/-- The runtime body of `partial_init!` after the checker has passed:
for each assignment in order, compute the field's address, `ptr::write`
the value's bytes there, and record the handle's address. -/
def writeAssignments (t : Ty) (base : Nat) :
    Mem → List (FieldPath × Val) → Except StaticError (Mem × List Nat)
  | m, [] => Except.ok (m, [])
  | m, (p, v) :: rest =>
    match offsetOf t p with
    | none => Except.error StaticError.typeError
    | some (o, u) =>
      if hasTy v u then
        match writeAssignments t base (writeBytes m (base + o) (Val.encode v)) rest with
        | Except.ok (m', hs) => Except.ok (m', (base + o) :: hs)
        | Except.error e => Except.error e
      else Except.error StaticError.typeError

/-- Model of `partial_init!` (src/partial_init.rs, multi-field arm):
`__assert_unique!` runs over the assignment paths first; if it emits any
error, compilation fails before any write; otherwise each field is
written and its handle returned. -/
def partial_init (t : Ty) (base : Nat) (m : Mem) (asgns : List (FieldPath × Val)) :
    Except StaticError (Mem × List Nat) :=
  match __assert_unique (asgns.map Prod.fst) with
  | [] => writeAssignments t base m asgns
  | es => Except.error (StaticError.conflicts es)

/-- Direct semantics of the single-path call form of `project_uninit!`:
project exactly one field. -/
def project_uninit_single (t : Ty) (base : Nat) (m : Mem) (p : FieldPath) :
    Except StaticError (Mem × Nat) :=
  match offsetOf t p with
  | some (o, _) => Except.ok (m, base + o)
  | none => Except.error StaticError.typeError

/-- Direct semantics of the single-path call form of
`project_uninit_mut!` (a single path can conflict with nothing). -/
def project_uninit_mut_single (t : Ty) (base : Nat) (m : Mem) (p : FieldPath) :
    Except StaticError (Mem × Nat) :=
  match offsetOf t p with
  | some (o, _) => Except.ok (m, base + o)
  | none => Except.error StaticError.typeError

/-- Direct semantics of the single-assignment call form of
`partial_init!`: write one field, return its handle. -/
def partial_init_single (t : Ty) (base : Nat) (m : Mem) (p : FieldPath) (v : Val) :
    Except StaticError (Mem × Nat) :=
  match offsetOf t p with
  | some (o, u) =>
    if hasTy v u then Except.ok (writeBytes m (base + o) (Val.encode v), base + o)
    else Except.error StaticError.typeError
  | none => Except.error StaticError.typeError

/-- Direct semantics of the single-path call form of `project_ptr!`. -/
def project_ptr_single (t : Ty) (base : Nat) (p : FieldPath) :
    Except StaticError Nat :=
  match offsetOf t p with
  | some (o, _) => Except.ok (base + o)
  | none => Except.error StaticError.typeError

/-- Direct semantics of the single-path call form of `project_ptr_mut!`. -/
def project_ptr_mut_single (t : Ty) (base : Nat) (p : FieldPath) :
    Except StaticError Nat :=
  match offsetOf t p with
  | some (o, _) => Except.ok (base + o)
  | none => Except.error StaticError.typeError

/-- Address of the field at path `p` inside an aggregate of type `t`
placed at address `base` (0 if the path resolves to no field). -/
def fieldAddr (t : Ty) (base : Nat) (p : FieldPath) : Nat :=
  match offsetOf t p with
  | some (o, _) => base + o
  | none => 0

/-- An assignment is statically well formed: its path names a field and
its value has that field's type. -/
def asgnOk (t : Ty) (pv : FieldPath × Val) : Bool :=
  match offsetOf t pv.1 with
  | some (_, u) => hasTy pv.2 u
  | none => false

/-- Two paths diverge: neither is a token-prefix of the other (in
particular they are not equal).  This is the spec's "Unrelated"
relation. -/
def Diverge (p q : FieldPath) : Prop :=
  ¬ p <+: q ∧ ¬ q <+: p

instance (p q : FieldPath) : Decidable (Diverge p q) := by
  unfold Diverge; infer_instance

/-- One single-field assignment per top-level field, starting at field
index `i`. -/
def topAssignments : Nat → List Val → List (FieldPath × Val)
  | _, [] => []
  | i, v :: vs => ([i], v) :: topAssignments (i + 1) vs

/-- Both directed checks between two paths pass. -/
def ChecksPass (p q : FieldPath) : Prop :=
  failIfStartsWith p q = none ∧ failIfStartsWith q p = none

/-- The layout of the test aggregate
`Foo { a: usize, b: (i32, (u8, i8), &'static str) }`
(tests/partial_init.rs, tests/project.rs): `usize` is 8 bytes, `i32`
4, `u8`/`i8` 1 each, `&'static str` 16 (pointer and length words). -/
def fooTy : Ty :=
  Ty.agg [Ty.prim 8, Ty.agg [Ty.prim 4, Ty.agg [Ty.prim 1, Ty.prim 1], Ty.prim 16]]

/-- Byte image of `7usize`. -/
def v7 : Val := Val.prim [7, 0, 0, 0, 0, 0, 0, 0]

/-- Byte image of `12usize`. -/
def v12 : Val := Val.prim [12, 0, 0, 0, 0, 0, 0, 0]

/-- Byte image of `240u8`. -/
def v240 : Val := Val.prim [240]

/-- Byte image of the `&'static str` value `"hello"` (pointer word and
length word of the fat reference). -/
def vHello : Val := Val.prim [104, 101, 108, 108, 111, 0, 0, 0, 5, 0, 0, 0, 0, 0, 0, 0]

/-- Byte image of `-10i32` (two's complement). -/
def vM10 : Val := Val.prim [246, 255, 255, 255]

/-- The tuple value `(17u8, -29i8)` (two's complement bytes). -/
def v1729 : Val := Val.agg [Val.prim [17], Val.prim [227]]

/-- The memory state after the first `partial_init!` call of the test
scenario (fields `a`, `b.1.0`, `b.2` of `Foo`). -/
def fooMem1 (m0 : Mem) : Mem :=
  writeBytes (writeBytes (writeBytes m0 0 (Val.encode v7)) 12 (Val.encode v240)) 14
    (Val.encode vHello)

/-- The assignments of the first `partial_init!` call in
`partial_init_and_mutate_field` (tests/partial_init.rs). -/
def fooAsgns1 : List (FieldPath × Val) := [([0], v7), ([1, 1, 0], v240), ([1, 2], vHello)]

/-- The assignments of the second `partial_init!` call in
`partial_init_and_mutate_field` (fields `b.0` and `b.1`). -/
def fooAsgns2 : List (FieldPath × Val) := [([1, 0], vM10), ([1, 1], v1729)]

/-- Memory after additionally storing `12usize` into field `a`. -/
def fooMem2 (m0 : Mem) : Mem := writeBytes (fooMem1 m0) 0 (Val.encode v12)

/-- Memory after the second `partial_init!` call. -/
def fooMem3 (m0 : Mem) : Mem :=
  writeBytes (writeBytes (fooMem2 m0) 8 (Val.encode vM10)) 12 (Val.encode v1729)

/-- Memory after `partial_init!` of fields `a` and `b.1.0` only. -/
def fooMemB : Mem :=
  writeBytes (writeBytes (fun _ => 0) 0 (Val.encode v7)) 12 (Val.encode v240)

/-- A single directed check passes exactly when the first path is not a
token-prefix of the second (equality included). -/
theorem failIfStartsWith_eq_none (a b : FieldPath) :
    failIfStartsWith a b = none ↔ ¬ a <+: b := by
  unfold failIfStartsWith
  split_ifs with h1 h2
  · subst h1; simp
  · simp [h2]
  · simp [h2]

theorem failIfStartsWith_self (a : FieldPath) :
    failIfStartsWith a a = some (ConflictError.duplicateField a) := by
  simp [failIfStartsWith]

theorem failIfStartsWith_nested (a b : FieldPath) (hpre : a <+: b) (hne : b ≠ a) :
    failIfStartsWith a b = some (ConflictError.nestedFieldConflict a b) := by
  simp [failIfStartsWith, hne, hpre]

theorem checksPass_iff_diverge (p q : FieldPath) : ChecksPass p q ↔ Diverge p q := by
  unfold ChecksPass Diverge
  rw [failIfStartsWith_eq_none, failIfStartsWith_eq_none]

/-- Soundness of the scan, generalised over the macro state: if every
pair of paths in the whole collection passes both directed checks, the
scan emits nothing. -/
theorem assert_unique_inner_eq_nil (next : List FieldPath) :
    ∀ (current : FieldPath) (prev : List FieldPath),
      (prev ++ current :: next).Pairwise ChecksPass →
      __assert_unique_inner current prev next = [] := by
  induction next with
  | nil =>
    intro c prev h
    simp only [__assert_unique_inner, __assert_not_from_self, List.filterMap_eq_nil_iff]
    intro b hb
    exact ((List.pairwise_append.mp h).2.2 b hb c (by simp)).2
  | cons n rest ih =>
    intro c prev h
    simp only [__assert_unique_inner, List.append_eq_nil]
    constructor
    · simp only [__assert_not_from_self, List.filterMap_eq_nil_iff]
      intro b hb
      rcases List.mem_append.mp hb with hbp | hbn
      · exact ((List.pairwise_append.mp h).2.2 b hbp c (by simp)).2
      · exact ((List.pairwise_cons.mp (List.pairwise_append.mp h).2.1).1 b hbn).1
    · exact ih n (prev ++ [c]) (by simpa [List.append_assoc] using h)

/-- Soundness: a pairwise conflict-free path list makes `__assert_unique`
emit no error. -/
theorem assert_unique_eq_nil {paths : List FieldPath}
    (h : paths.Pairwise ChecksPass) : __assert_unique paths = [] := by
  match paths with
  | [] => rfl
  | [p] => rfl
  | p :: q :: rest =>
    exact assert_unique_inner_eq_nil (q :: rest) p [] (by simpa using h)

/-- Any error produced by checking the current path against one of the
other paths is among the scan's output. -/
theorem mem_assert_unique_inner_current {current b : FieldPath} {prev next : List FieldPath}
    {e : ConflictError} (hb : b ∈ prev ++ next)
    (hf : failIfStartsWith current b = some e) :
    e ∈ __assert_unique_inner current prev next := by
  match next with
  | [] =>
    simp only [__assert_unique_inner, __assert_not_from_self]
    exact List.mem_filterMap.mpr ⟨b, by simpa using hb, hf⟩
  | n :: rest =>
    simp only [__assert_unique_inner]
    exact List.mem_append_left _ (List.mem_filterMap.mpr ⟨b, hb, hf⟩)

/-- Any error produced by checking a later path `p` (anywhere in the
remaining list) against any other path `q` of the collection is among
the scan's output. -/
theorem mem_assert_unique_inner_later {p q : FieldPath} {e : ConflictError} :
    ∀ (n1 : List FieldPath) (current : FieldPath) (prev n2 : List FieldPath),
      q ∈ prev ++ current :: (n1 ++ n2) →
      failIfStartsWith p q = some e →
      e ∈ __assert_unique_inner current prev (n1 ++ p :: n2) := by
  intro n1
  induction n1 with
  | nil =>
    intro c prev n2 hq hf
    simp only [List.nil_append] at hq ⊢
    simp only [__assert_unique_inner]
    apply List.mem_append_right
    apply mem_assert_unique_inner_current _ hf
    simp only [List.mem_append, List.mem_cons] at hq ⊢
    tauto
  | cons n n1' ih =>
    intro c prev n2 hq hf
    simp only [List.cons_append, __assert_unique_inner]
    apply List.mem_append_right
    apply ih n (prev ++ [c]) n2 _ hf
    simp only [List.mem_append, List.mem_cons] at hq ⊢
    tauto

theorem assert_unique_cons (a : FieldPath) (l : List FieldPath) (hl : l ≠ []) :
    __assert_unique (a :: l) = __assert_unique_inner a [] l := by
  match l with
  | [] => exact absurd rfl hl
  | x :: xs => rfl

/-- Completeness: whenever some path `p` of the list is equal to or a
prefix of another path `q` of the list (in either order of occurrence),
the corresponding error is among the checker's output. -/
theorem mem_assert_unique {l1 l2 : List FieldPath} {p q : FieldPath} {e : ConflictError}
    (hq : q ∈ l1 ++ l2) (hf : failIfStartsWith p q = some e) :
    e ∈ __assert_unique (l1 ++ p :: l2) := by
  match l1 with
  | [] =>
    simp only [List.nil_append] at hq ⊢
    match l2, hq with
    | n :: rest, hq =>
      rw [assert_unique_cons p (n :: rest) (by simp)]
      exact mem_assert_unique_inner_current (by simpa using hq) hf
  | h :: l1' =>
    rw [List.cons_append, assert_unique_cons h (l1' ++ p :: l2) (by simp)]
    apply mem_assert_unique_inner_later l1' h [] l2 _ hf
    simpa using hq

/-- A silent scan means every pair of the collection passes both
directed checks, and in particular every later path passes against every
earlier one. -/
theorem assert_unique_inner_nil_pairwise (next : List FieldPath) :
    ∀ (current : FieldPath) (prev : List FieldPath),
      __assert_unique_inner current prev next = [] →
      (∀ x ∈ current :: next, ∀ b ∈ prev, failIfStartsWith x b = none) ∧
        (current :: next).Pairwise ChecksPass := by
  induction next with
  | nil =>
    intro c prev h
    simp only [__assert_unique_inner, __assert_not_from_self, List.filterMap_eq_nil_iff] at h
    refine ⟨?_, by simp⟩
    intro x hx b hb
    simp only [List.mem_singleton] at hx
    subst hx
    exact h b hb
  | cons n rest ih =>
    intro c prev h
    simp only [__assert_unique_inner, List.append_eq_nil] at h
    obtain ⟨h1, h2⟩ := h
    simp only [__assert_not_from_self, List.filterMap_eq_nil_iff] at h1
    obtain ⟨ihA, ihB⟩ := ih n (prev ++ [c]) h2
    constructor
    · intro x hx b hb
      rcases List.mem_cons.mp hx with rfl | hx'
      · exact h1 b (List.mem_append_left _ hb)
      · exact ihA x hx' b (List.mem_append_left _ hb)
    · rw [List.pairwise_cons]
      refine ⟨?_, ihB⟩
      intro b hb
      exact ⟨h1 b (List.mem_append_right _ hb), ihA b hb c (by simp)⟩

/-- If the checker emits nothing, the path list is pairwise
conflict-free. -/
theorem pairwise_of_assert_unique_eq_nil {paths : List FieldPath}
    (h : __assert_unique paths = []) : paths.Pairwise ChecksPass := by
  match paths with
  | [] => simp
  | [p] => simp
  | p :: q :: rest =>
    exact (assert_unique_inner_nil_pairwise (q :: rest) p [] h).2

theorem eraseIdx_append_mid {α : Type} (prev : List α) (c : α) (next : List α) :
    (prev ++ c :: next).eraseIdx prev.length = prev ++ next := by
  induction prev with
  | nil => rfl
  | cons x xs ih => simp [List.eraseIdx, ih]

theorem getD_append_mid {α : Type} (prev : List α) (c : α) (next : List α) (d : α) :
    (prev ++ c :: next).getD prev.length d = c := by
  induction prev with
  | nil => rfl
  | cons x xs ih => simpa using ih

/-- The scan as a flat enumeration: starting from position
`prev.length`, each position `k` in turn is checked against all the
other positions (`eraseIdx k`), in list order. -/
theorem assert_unique_inner_scan (next : List FieldPath) :
    ∀ (current : FieldPath) (prev : List FieldPath),
      __assert_unique_inner current prev next =
        (List.range' prev.length (next.length + 1)).flatMap
          (fun k => __assert_not_from_self ((prev ++ current :: next).getD k [])
            ((prev ++ current :: next).eraseIdx k)) := by
  induction next with
  | nil =>
    intro c prev
    show __assert_not_from_self c prev = _
    rw [List.range'_succ]
    simp [getD_append_mid, eraseIdx_append_mid]
  | cons n rest ih =>
    intro c prev
    simp only [__assert_unique_inner]
    rw [ih n (prev ++ [c])]
    conv_rhs => rw [List.length_cons, List.range'_succ, List.flatMap_cons]
    rw [getD_append_mid, eraseIdx_append_mid]
    congr 1
    simp [List.append_assoc]

/-- The whole checker as a flat deterministic scan: position `k` runs
left to right over the list, and each position is checked against all
the other positions in list order; every conflicting directed pair
contributes exactly its own error, in this fixed order. -/
theorem assert_unique_scan (paths : List FieldPath) :
    __assert_unique paths =
      (List.range paths.length).flatMap
        (fun k => __assert_not_from_self (paths.getD k []) (paths.eraseIdx k)) := by
  match paths with
  | [] => rfl
  | [p] => rfl
  | a :: b :: rest =>
    rw [assert_unique_cons a (b :: rest) (by simp), assert_unique_inner_scan,
      List.range_eq_range']
    rfl

mutual

/-- A resolved field lies within its enclosing type's byte range. -/
theorem offsetOf_bound : ∀ (t : Ty) (p : FieldPath) (o : Nat) (u : Ty),
    offsetOf t p = some (o, u) → o + u.size ≤ t.size
  | t, [], o, u => by
    intro h
    simp only [offsetOf, Option.some.injEq, Prod.mk.injEq] at h
    obtain ⟨rfl, rfl⟩ := h
    simp
  | .prim n, i :: p, o, u => by
    intro h
    simp [offsetOf] at h
  | .agg fs, i :: p, o, u => by
    intro h
    simp only [offsetOf] at h
    simpa [Ty.size] using offsetOfAt_bound fs i p o u h

/-- A field resolved inside a field list lies within the list's total
byte range. -/
theorem offsetOfAt_bound : ∀ (fs : List Ty) (i : Nat) (p : FieldPath) (o : Nat) (u : Ty),
    offsetOfAt fs i p = some (o, u) → o + u.size ≤ Ty.sizeList fs
  | [], i, p, o, u => by
    intro h
    simp [offsetOfAt] at h
  | t :: ts, 0, p, o, u => by
    intro h
    simp only [offsetOfAt] at h
    have := offsetOf_bound t p o u h
    simp only [Ty.sizeList]
    omega
  | t :: ts, i + 1, p, o, u => by
    intro h
    simp only [offsetOfAt] at h
    match ho : offsetOfAt ts i p with
    | some (o', u') =>
      rw [ho] at h
      simp only [Option.some.injEq, Prod.mk.injEq] at h
      obtain ⟨rfl, rfl⟩ := h
      have := offsetOfAt_bound ts i p o' u' ho
      simp only [Ty.sizeList]
      omega
    | none => rw [ho] at h; simp at h

end

mutual

/-- Diverging paths resolve to disjoint byte ranges: the layout is
sequential, so two fields that are not ancestor/descendant of one
another never share a byte. -/
theorem offsetOf_disjoint : ∀ (t : Ty) (p q : FieldPath) (o1 o2 : Nat) (u1 u2 : Ty),
    offsetOf t p = some (o1, u1) → offsetOf t q = some (o2, u2) →
    ¬ p <+: q → ¬ q <+: p →
    o1 + u1.size ≤ o2 ∨ o2 + u2.size ≤ o1
  | t, [], q, o1, o2, u1, u2 => by
    intro _ _ hpq _
    exact absurd List.nil_prefix hpq
  | t, i :: p, [], o1, o2, u1, u2 => by
    intro _ _ _ hqp
    exact absurd List.nil_prefix hqp
  | .prim n, i :: p, j :: q, o1, o2, u1, u2 => by
    intro h1
    simp [offsetOf] at h1
  | .agg fs, i :: p, j :: q, o1, o2, u1, u2 => by
    intro h1 h2 hpq hqp
    simp only [offsetOf] at h1 h2
    refine offsetOfAt_disjoint fs i j p q o1 o2 u1 u2 h1 h2 ?_
    by_cases hij : i = j
    · subst hij
      refine Or.inr ⟨rfl, ?_, ?_⟩
      · intro hc; exact hpq (List.cons_prefix_cons.mpr ⟨rfl, hc⟩)
      · intro hc; exact hqp (List.cons_prefix_cons.mpr ⟨rfl, hc⟩)
    · exact Or.inl hij

/-- Disjointness inside a field list: different field indices give
disjoint ranges; the same index reduces to the field's own type. -/
theorem offsetOfAt_disjoint : ∀ (fs : List Ty) (i j : Nat) (p q : FieldPath)
    (o1 o2 : Nat) (u1 u2 : Ty),
    offsetOfAt fs i p = some (o1, u1) → offsetOfAt fs j q = some (o2, u2) →
    (i ≠ j ∨ (i = j ∧ ¬ p <+: q ∧ ¬ q <+: p)) →
    o1 + u1.size ≤ o2 ∨ o2 + u2.size ≤ o1
  | [], i, j, p, q, o1, o2, u1, u2 => by
    intro h1
    simp [offsetOfAt] at h1
  | t :: ts, 0, 0, p, q, o1, o2, u1, u2 => by
    intro h1 h2 hcond
    simp only [offsetOfAt] at h1 h2
    rcases hcond with hne | ⟨_, hpq, hqp⟩
    · exact absurd rfl hne
    · exact offsetOf_disjoint t p q o1 o2 u1 u2 h1 h2 hpq hqp
  | t :: ts, 0, j + 1, p, q, o1, o2, u1, u2 => by
    intro h1 h2 _
    simp only [offsetOfAt] at h1 h2
    match ho : offsetOfAt ts j q with
    | some (o', u') =>
      rw [ho] at h2
      simp only [Option.some.injEq, Prod.mk.injEq] at h2
      obtain ⟨rfl, rfl⟩ := h2
      have := offsetOf_bound t p o1 u1 h1
      omega
    | none => rw [ho] at h2; simp at h2
  | t :: ts, i + 1, 0, p, q, o1, o2, u1, u2 => by
    intro h1 h2 _
    simp only [offsetOfAt] at h1 h2
    match ho : offsetOfAt ts i p with
    | some (o', u') =>
      rw [ho] at h1
      simp only [Option.some.injEq, Prod.mk.injEq] at h1
      obtain ⟨rfl, rfl⟩ := h1
      have := offsetOf_bound t q o2 u2 h2
      omega
    | none => rw [ho] at h1; simp at h1
  | t :: ts, i + 1, j + 1, p, q, o1, o2, u1, u2 => by
    intro h1 h2 hcond
    simp only [offsetOfAt] at h1 h2
    match ho1 : offsetOfAt ts i p, ho2 : offsetOfAt ts j q with
    | some (o1', u1'), some (o2', u2') =>
      rw [ho1] at h1; rw [ho2] at h2
      simp only [Option.some.injEq, Prod.mk.injEq] at h1 h2
      obtain ⟨rfl, rfl⟩ := h1
      obtain ⟨rfl, rfl⟩ := h2
      have : o1' + u1'.size ≤ o2' ∨ o2' + u2'.size ≤ o1' := by
        refine offsetOfAt_disjoint ts i j p q o1' o2' u1' u2' ho1 ho2 ?_
        rcases hcond with hne | ⟨heq, hd⟩
        · exact Or.inl (fun hc => hne (by omega))
        · exact Or.inr ⟨by omega, hd⟩
      omega
    | some _, none => rw [ho2] at h2; simp at h2
    | none, _ => rw [ho1] at h1; simp at h1

end

mutual

/-- A well-typed value's byte image has exactly its type's size. -/
theorem encode_length : ∀ (v : Val) (t : Ty), hasTy v t = true →
    (Val.encode v).length = t.size
  | .prim bs, .prim n => by
    intro h
    simpa [hasTy, Val.encode, Ty.size] using h
  | .prim bs, .agg ts => by intro h; simp [hasTy] at h
  | .agg vs, .prim n => by intro h; simp [hasTy] at h
  | .agg vs, .agg ts => by
    intro h
    simp only [hasTy] at h
    simpa [Val.encode, Ty.size] using encodeList_length vs ts h

/-- Field-list version of `encode_length`. -/
theorem encodeList_length : ∀ (vs : List Val) (ts : List Ty), hasTyList vs ts = true →
    (Val.encodeList vs).length = Ty.sizeList ts
  | [], [] => by intro _; rfl
  | [], t :: ts => by intro h; simp [hasTyList] at h
  | v :: vs, [] => by intro h; simp [hasTyList] at h
  | v :: vs, t :: ts => by
    intro h
    simp only [hasTyList, Bool.and_eq_true] at h
    simp only [Val.encodeList, Ty.sizeList, List.length_append]
    rw [encode_length v t h.1, encodeList_length vs ts h.2]

end

/-- A raw store leaves every address below the written range
unchanged. -/
theorem writeBytes_lt (bs : List Nat) : ∀ (m : Mem) (off a : Nat), a < off →
    writeBytes m off bs a = m a := by
  induction bs with
  | nil => intro m off a _; rfl
  | cons b bs ih =>
    intro m off a ha
    simp only [writeBytes]
    rw [if_neg (by omega)]
    exact ih m (off + 1) a (by omega)

/-- A raw store leaves every address at or beyond the end of the written
range unchanged. -/
theorem writeBytes_ge (bs : List Nat) : ∀ (m : Mem) (off a : Nat),
    off + bs.length ≤ a → writeBytes m off bs a = m a := by
  induction bs with
  | nil => intro m off a _; rfl
  | cons b bs ih =>
    intro m off a ha
    simp only [List.length_cons] at ha
    simp only [writeBytes]
    rw [if_neg (by omega)]
    exact ih m (off + 1) a (by omega)

/-- Reading depends only on the bytes of the range being read. -/
theorem readBytes_congr : ∀ (n : Nat) (m1 m2 : Mem) (off : Nat),
    (∀ a, off ≤ a → a < off + n → m1 a = m2 a) →
    readBytes m1 off n = readBytes m2 off n := by
  intro n
  induction n with
  | zero => intro m1 m2 off _; rfl
  | succ k ih =>
    intro m1 m2 off h
    simp only [readBytes]
    rw [h off (by omega) (by omega), ih m1 m2 (off + 1) (fun a h1 h2 => h a (by omega) (by omega))]

/-- Reading back a freshly written range yields exactly the written
bytes — independently of what the memory held before. -/
theorem readBytes_writeBytes : ∀ (bs : List Nat) (m : Mem) (off : Nat),
    readBytes (writeBytes m off bs) off bs.length = bs := by
  intro bs
  induction bs with
  | nil => intro m off; rfl
  | cons b bs ih =>
    intro m off
    simp only [List.length_cons, readBytes]
    congr 1
    · simp [writeBytes]
    · rw [readBytes_congr bs.length (writeBytes m off (b :: bs)) (writeBytes m (off + 1) bs)
        (off + 1) ?_, ih m (off + 1)]
      intro a ha _
      simp only [writeBytes]
      rw [if_neg (by omega)]

/-- Reading a concatenated range splits at the boundary. -/
theorem readBytes_add : ∀ (n : Nat) (m : Mem) (off k : Nat),
    readBytes m off (n + k) = readBytes m off n ++ readBytes m (off + n) k := by
  intro n
  induction n with
  | zero => intro m off k; simp [readBytes]
  | succ j ih =>
    intro m off k
    have : j + 1 + k = (j + k) + 1 := by omega
    rw [this]
    simp only [readBytes, List.cons_append]
    rw [ih m (off + 1) k]
    have h2 : off + 1 + j = off + (j + 1) := by omega
    rw [h2]

theorem asgnOk_iff (t : Ty) (pv : FieldPath × Val) :
    asgnOk t pv = true ↔ ∃ o u, offsetOf t pv.1 = some (o, u) ∧ hasTy pv.2 u = true := by
  unfold asgnOk
  cases ho : offsetOf t pv.1 with
  | none => simp
  | some x =>
    obtain ⟨o, u⟩ := x
    simp only [Option.some.injEq, Prod.mk.injEq]
    exact ⟨fun h => ⟨o, u, ⟨rfl, rfl⟩, h⟩, fun ⟨o', u', ⟨h1, h2⟩, h3⟩ => h2 ▸ h3⟩

/-- A successful run of the write loop means every assignment named an
existing field and carried a value of that field's type. -/
theorem writeAssignments_ok (t : Ty) (base : Nat) :
    ∀ (asgns : List (FieldPath × Val)) (m m' : Mem) (hs : List Nat),
      writeAssignments t base m asgns = Except.ok (m', hs) →
      ∀ pv ∈ asgns, asgnOk t pv = true := by
  intro asgns
  induction asgns with
  | nil =>
    intro m m' hs _ pv hpv
    simp at hpv
  | cons pv0 rest ih =>
    intro m m' hs h pv hpv
    obtain ⟨p, v⟩ := pv0
    simp only [writeAssignments] at h
    cases ho : offsetOf t p with
    | none => simp only [ho] at h; exact absurd h (by simp)
    | some x =>
      obtain ⟨o, u⟩ := x
      simp only [ho] at h
      by_cases hty : hasTy v u
      · rw [if_pos hty] at h
        cases hw : writeAssignments t base (writeBytes m (base + o) (Val.encode v)) rest with
        | ok r =>
          obtain ⟨m2, hs2⟩ := r
          rcases List.mem_cons.mp hpv with rfl | hmem
          · exact (asgnOk_iff t (p, v)).mpr ⟨o, u, ho, hty⟩
          · exact ih _ m2 hs2 hw pv hmem
        | error e => rw [hw] at h; exact absurd h (by simp)
      · rw [if_neg hty] at h; exact absurd h (by simp)

/-- Frame property of the write loop: an address outside every written
field's byte range keeps its previous value. -/
theorem writeAssignments_frame (t : Ty) (base : Nat) :
    ∀ (asgns : List (FieldPath × Val)) (m m' : Mem) (hs : List Nat) (a : Nat),
      writeAssignments t base m asgns = Except.ok (m', hs) →
      (∀ pv ∈ asgns, ∀ o u, offsetOf t pv.1 = some (o, u) →
        a < base + o ∨ base + o + u.size ≤ a) →
      m' a = m a := by
  intro asgns
  induction asgns with
  | nil =>
    intro m m' hs a h _
    simp only [writeAssignments, Except.ok.injEq, Prod.mk.injEq] at h
    rw [← h.1]
  | cons pv0 rest ih =>
    intro m m' hs a h hout
    obtain ⟨p, v⟩ := pv0
    simp only [writeAssignments] at h
    cases ho : offsetOf t p with
    | none => simp only [ho] at h; exact absurd h (by simp)
    | some x =>
      obtain ⟨o, u⟩ := x
      simp only [ho] at h
      by_cases hty : hasTy v u
      · rw [if_pos hty] at h
        cases hw : writeAssignments t base (writeBytes m (base + o) (Val.encode v)) rest with
        | ok r =>
          obtain ⟨m2, hs2⟩ := r
          rw [hw] at h
          simp only [Except.ok.injEq, Prod.mk.injEq] at h
          have hm2 : m' = m2 := h.1.symm
          subst hm2
          rw [ih _ m' hs2 a hw (fun pv hpv => hout pv (List.mem_cons_of_mem _ hpv))]
          rcases hout (p, v) (List.mem_cons_self _ _) o u ho with hlt | hge
          · exact writeBytes_lt _ m (base + o) a hlt
          · refine writeBytes_ge _ m (base + o) a ?_
            rw [encode_length v u hty]
            exact hge
        | error e => rw [hw] at h; exact absurd h (by simp)
      · rw [if_neg hty] at h; exact absurd h (by simp)

/-- The write loop succeeds on well-formed assignments, and the handle
it returns for each assignment is the address of that field. -/
theorem writeAssignments_succeeds (t : Ty) (base : Nat) :
    ∀ (asgns : List (FieldPath × Val)) (m : Mem),
      (∀ pv ∈ asgns, asgnOk t pv = true) →
      ∃ m', writeAssignments t base m asgns =
        Except.ok (m', asgns.map (fun pv => fieldAddr t base pv.1)) := by
  intro asgns
  induction asgns with
  | nil => intro m _; exact ⟨m, rfl⟩
  | cons pv0 rest ih =>
    intro m hok
    obtain ⟨p, v⟩ := pv0
    obtain ⟨o, u, ho, hty⟩ := (asgnOk_iff t (p, v)).mp (hok (p, v) (List.mem_cons_self _ _))
    obtain ⟨m', hm'⟩ := ih (writeBytes m (base + o) (Val.encode v))
      (fun pv hpv => hok pv (List.mem_cons_of_mem _ hpv))
    refine ⟨m', ?_⟩
    simp only [writeAssignments, ho, if_pos hty, hm', List.map_cons]
    have : fieldAddr t base p = base + o := by simp [fieldAddr, ho]
    rw [this]

/-- Path resolution succeeds on valid paths and returns each field's
address. -/
theorem resolveAddrs_ok (t : Ty) (base : Nat) :
    ∀ (paths : List FieldPath),
      (∀ p ∈ paths, (offsetOf t p).isSome = true) →
      resolveAddrs t base paths = Except.ok (paths.map (fieldAddr t base)) := by
  intro paths
  induction paths with
  | nil => intro _; rfl
  | cons p rest ih =>
    intro hok
    have hp := hok p (List.mem_cons_self _ _)
    cases ho : offsetOf t p with
    | none => rw [ho] at hp; simp at hp
    | some x =>
      obtain ⟨o, u⟩ := x
      simp only [resolveAddrs, ho, ih (fun q hq => hok q (List.mem_cons_of_mem _ hq)),
        List.map_cons]
      have : fieldAddr t base p = base + o := by simp [fieldAddr, ho]
      rw [this]

/-- Readback: after a successful write loop over pairwise-diverging
paths, reading each handle's byte range yields exactly the bytes of the
value assigned to it — independent of the memory's previous contents
(the result mentions only the value). -/
theorem writeAssignments_readback (t : Ty) (base : Nat) :
    ∀ (asgns : List (FieldPath × Val)) (m m' : Mem) (hs : List Nat),
      (asgns.map Prod.fst).Pairwise Diverge →
      writeAssignments t base m asgns = Except.ok (m', hs) →
      ∀ pv ∈ asgns, ∀ o u, offsetOf t pv.1 = some (o, u) →
        readBytes m' (base + o) u.size = Val.encode pv.2 := by
  intro asgns
  induction asgns with
  | nil => intro m m' hs _ _ pv hpv; simp at hpv
  | cons pv0 rest ih =>
    intro m m' hs hdiv h pv hpv
    obtain ⟨p, v⟩ := pv0
    simp only [List.map_cons, List.pairwise_cons] at hdiv
    obtain ⟨hdhead, hdtail⟩ := hdiv
    simp only [writeAssignments] at h
    cases ho0 : offsetOf t p with
    | none => simp only [ho0] at h; exact absurd h (by simp)
    | some x =>
      obtain ⟨o0, u0⟩ := x
      simp only [ho0] at h
      by_cases hty : hasTy v u0
      · rw [if_pos hty] at h
        cases hw : writeAssignments t base (writeBytes m (base + o0) (Val.encode v)) rest with
        | ok r =>
          obtain ⟨m2, hs2⟩ := r
          rw [hw] at h
          simp only [Except.ok.injEq, Prod.mk.injEq] at h
          have hm2 : m' = m2 := h.1.symm
          subst hm2
          rcases List.mem_cons.mp hpv with rfl | hmem
          · intro o u ho
            rw [ho0] at ho
            simp only [Option.some.injEq, Prod.mk.injEq] at ho
            obtain ⟨rfl, rfl⟩ := ho
            have hframe : ∀ a, base + o0 ≤ a → a < base + o0 + u0.size →
                m' a = writeBytes m (base + o0) (Val.encode v) a := by
              intro a h1 h2
              apply writeAssignments_frame t base rest _ m' hs2 a hw
              intro qv hqv oq uq hoq
              have hd : Diverge p qv.1 := hdhead qv.1 (List.mem_map_of_mem _ hqv)
              have hdisj := offsetOf_disjoint t p qv.1 o0 oq u0 uq ho0 hoq hd.1 hd.2
              omega
            rw [readBytes_congr u0.size m' (writeBytes m (base + o0) (Val.encode v))
              (base + o0) hframe]
            rw [← encode_length v u0 hty, readBytes_writeBytes]
          · intro o u ho
            exact ih _ m' hs2 hdtail hw pv hmem o u ho
        | error e => rw [hw] at h; exact absurd h (by simp)
      · rw [if_neg hty] at h; exact absurd h (by simp)

/-- A silent checker certifies that the path list is pairwise
divergent. -/
theorem pairwise_diverge_of_checker {paths : List FieldPath}
    (h : __assert_unique paths = []) : paths.Pairwise Diverge :=
  (pairwise_of_assert_unique_eq_nil h).imp fun hc => (checksPass_iff_diverge _ _).mp hc

/-- A pairwise divergent path list passes the checker silently. -/
theorem checker_of_pairwise_diverge {paths : List FieldPath}
    (h : paths.Pairwise Diverge) : __assert_unique paths = [] :=
  assert_unique_eq_nil (h.imp fun hd => (checksPass_iff_diverge _ _).mpr hd)

/-- A successful `partial_init!` implies the checker was silent and the
write loop ran. -/
theorem partial_init_ok_elim {t : Ty} {base : Nat} {m m' : Mem}
    {asgns : List (FieldPath × Val)} {hs : List Nat}
    (h : partial_init t base m asgns = Except.ok (m', hs)) :
    __assert_unique (asgns.map Prod.fst) = [] ∧
      writeAssignments t base m asgns = Except.ok (m', hs) := by
  unfold partial_init at h
  cases hc : __assert_unique (asgns.map Prod.fst) with
  | nil => simp only [hc] at h; exact ⟨rfl, h⟩
  | cons e es => simp only [hc] at h; exact absurd h (by simp)

/-- Running `partial_init!` with a silent checker is just the write loop. -/
theorem partial_init_eq_writes {t : Ty} {base : Nat} {m : Mem}
    {asgns : List (FieldPath × Val)}
    (h : __assert_unique (asgns.map Prod.fst) = []) :
    partial_init t base m asgns = writeAssignments t base m asgns := by
  simp only [partial_init, h]

/-- Claim C1: a path set containing a nesting pair — one path a strict
token-prefix of another, in either order of occurrence — is rejected by
the checker, and both exclusive projection (`project_uninit_mut!`) and
partial initialization (`partial_init!`) fail at compile time with an
error naming both the ancestor and the descendant path. -/
theorem nesting_pair_rejected (t : Ty) (base : Nat) (m : Mem)
    (l1 l2 : List FieldPath) (p q : FieldPath) (asgns : List (FieldPath × Val))
    (hq : q ∈ l1 ++ l2) (hpre : p <+: q) (hne : p ≠ q)
    (hasgns : asgns.map Prod.fst = l1 ++ p :: l2) :
    ConflictError.nestedFieldConflict p q ∈ __assert_unique (l1 ++ p :: l2) ∧
      (∃ es, project_uninit_mut t base m (l1 ++ p :: l2) =
          Except.error (StaticError.conflicts es) ∧
        ConflictError.nestedFieldConflict p q ∈ es) ∧
      (∃ es, partial_init t base m asgns = Except.error (StaticError.conflicts es) ∧
        ConflictError.nestedFieldConflict p q ∈ es) := by
  have hf : failIfStartsWith p q = some (ConflictError.nestedFieldConflict p q) :=
    failIfStartsWith_nested p q hpre (fun hc => hne hc.symm)
  have hmem := mem_assert_unique hq hf
  refine ⟨hmem, ?_, ?_⟩
  · cases hc : __assert_unique (l1 ++ p :: l2) with
    | nil => rw [hc] at hmem; simp at hmem
    | cons e es =>
      refine ⟨e :: es, ?_, by rw [← hc]; exact hmem⟩
      simp only [project_uninit_mut, hc]
  · cases hc : __assert_unique (asgns.map Prod.fst) with
    | nil => rw [hasgns] at hc; rw [hc] at hmem; simp at hmem
    | cons e es =>
      refine ⟨e :: es, ?_, by rw [← hc, hasgns]; exact hmem⟩
      simp only [partial_init, hc]

/-- Witness for C1 at the nested pair `{b, b.1}` of the test aggregate,
in both occurrence orders. -/
theorem nesting_pair_rejected_witness :
    (([1, 1] : FieldPath) ∈ ([] : List FieldPath) ++ [[1, 1]] ∧
      ([1] : FieldPath) <+: [1, 1] ∧ ([1] : FieldPath) ≠ [1, 1]) ∧
    (ConflictError.nestedFieldConflict [1] [1, 1] ∈ __assert_unique [[1], [1, 1]] ∧
      (∃ es, project_uninit_mut fooTy 0 (fun _ => 0) [[1], [1, 1]] =
          Except.error (StaticError.conflicts es) ∧
        ConflictError.nestedFieldConflict [1] [1, 1] ∈ es) ∧
      (∃ es, partial_init fooTy 0 (fun _ => 0) [([1], vM10), ([1, 1], v240)] =
          Except.error (StaticError.conflicts es) ∧
        ConflictError.nestedFieldConflict [1] [1, 1] ∈ es)) ∧
    ConflictError.nestedFieldConflict [1] [1, 1] ∈ __assert_unique [[1, 1], [1]] :=
  ⟨⟨by decide, by decide, by decide⟩,
    nesting_pair_rejected fooTy 0 (fun _ => 0) [] [[1, 1]] [1] [1, 1]
      [([1], vM10), ([1, 1], v240)] (by decide) (by decide) (by decide) rfl,
    (nesting_pair_rejected fooTy 0 (fun _ => 0) [[1, 1]] [] [1] [1, 1]
      [([1, 1], v240), ([1], vM10)] (by decide) (by decide) (by decide) rfl).1⟩

/-- Claim C2: a path set containing the same token sequence twice is
rejected by the checker with an error naming the repeated path, and both
exclusive projection and partial initialization fail at compile time —
the error result carries no memory, so no write has occurred. -/
theorem duplicate_path_rejected (t : Ty) (base : Nat) (m : Mem)
    (l1 l2 : List FieldPath) (p : FieldPath) (asgns : List (FieldPath × Val))
    (hp : p ∈ l1 ++ l2)
    (hasgns : asgns.map Prod.fst = l1 ++ p :: l2) :
    ConflictError.duplicateField p ∈ __assert_unique (l1 ++ p :: l2) ∧
      (∃ es, project_uninit_mut t base m (l1 ++ p :: l2) =
          Except.error (StaticError.conflicts es) ∧
        ConflictError.duplicateField p ∈ es) ∧
      (∃ es, partial_init t base m asgns = Except.error (StaticError.conflicts es) ∧
        ConflictError.duplicateField p ∈ es) := by
  have hmem := mem_assert_unique hp (failIfStartsWith_self p)
  refine ⟨hmem, ?_, ?_⟩
  · cases hc : __assert_unique (l1 ++ p :: l2) with
    | nil => rw [hc] at hmem; simp at hmem
    | cons e es =>
      refine ⟨e :: es, ?_, by rw [← hc]; exact hmem⟩
      simp only [project_uninit_mut, hc]
  · cases hc : __assert_unique (asgns.map Prod.fst) with
    | nil => rw [hasgns] at hc; rw [hc] at hmem; simp at hmem
    | cons e es =>
      refine ⟨e :: es, ?_, by rw [← hc, hasgns]; exact hmem⟩
      simp only [partial_init, hc]

/-- Witness for C2 at the duplicate set `{a, a}` of the test
aggregate. -/
theorem duplicate_path_rejected_witness :
    (([0] : FieldPath) ∈ ([] : List FieldPath) ++ [[0]]) ∧
    (ConflictError.duplicateField [0] ∈ __assert_unique [[0], [0]] ∧
      (∃ es, project_uninit_mut fooTy 0 (fun _ => 0) [[0], [0]] =
          Except.error (StaticError.conflicts es) ∧
        ConflictError.duplicateField [0] ∈ es) ∧
      (∃ es, partial_init fooTy 0 (fun _ => 0) [([0], v7), ([0], v12)] =
          Except.error (StaticError.conflicts es) ∧
        ConflictError.duplicateField [0] ∈ es)) :=
  ⟨by decide,
    duplicate_path_rejected fooTy 0 (fun _ => 0) [] [[0]] [0]
      [([0], v7), ([0], v12)] (by decide) rfl⟩

/-- Counterexample to claim C7 as stated: a single invocation of the
checker on `{a, a}` emits two errors (one for each directed pair of the
scan), not one error per invocation. -/
theorem checker_two_errors_per_invocation :
    __assert_unique [[0], [0]] =
      [ConflictError.duplicateField [0], ConflictError.duplicateField [0]] ∧
    (__assert_unique [[0], [0]]).length ≠ 1 := by
  exact ⟨by decide, by decide⟩

/-- Claim C7 (amended): the checker's output is a fixed deterministic
left-to-right scan — position `k` runs over the path list in order, and
each position's path is checked against all the other paths in list
order — emitting exactly one error, naming the specific conflicting
pair, for every directed conflicting pair so enumerated (hence possibly
several errors in one invocation). -/
theorem checker_scan_deterministic (paths : List FieldPath) :
    __assert_unique paths =
      (List.range paths.length).flatMap
        (fun k => (paths.eraseIdx k).filterMap (failIfStartsWith (paths.getD k []))) :=
  assert_unique_scan paths

/-- Claim C3: on a path set in which every pair of paths diverges
(which covers empty and singleton sets trivially), the checker is
silent, exclusive projection and partial initialization both succeed,
and the returned handles cover pairwise disjoint byte ranges. -/
theorem conflict_free_set_succeeds (t : Ty) (base : Nat) (m : Mem)
    (asgns : List (FieldPath × Val))
    (hdiv : (asgns.map Prod.fst).Pairwise Diverge)
    (hok : ∀ pv ∈ asgns, asgnOk t pv = true) :
    __assert_unique (asgns.map Prod.fst) = [] ∧
      project_uninit_mut t base m (asgns.map Prod.fst) =
        Except.ok (m, (asgns.map Prod.fst).map (fieldAddr t base)) ∧
      (∃ m', partial_init t base m asgns =
        Except.ok (m', (asgns.map Prod.fst).map (fieldAddr t base))) ∧
      (asgns.map Prod.fst).Pairwise (fun p q => ∀ o1 u1 o2 u2,
        offsetOf t p = some (o1, u1) → offsetOf t q = some (o2, u2) →
        fieldAddr t base p + u1.size ≤ fieldAddr t base q ∨
          fieldAddr t base q + u2.size ≤ fieldAddr t base p) := by
  have hchk := checker_of_pairwise_diverge hdiv
  have hres : ∀ p ∈ asgns.map Prod.fst, (offsetOf t p).isSome = true := by
    intro p hp
    obtain ⟨pv, hpv, rfl⟩ := List.mem_map.mp hp
    obtain ⟨o, u, ho, _⟩ := (asgnOk_iff t pv).mp (hok pv hpv)
    simp [ho]
  have hmapeq : asgns.map (fun pv => fieldAddr t base pv.1) =
      (asgns.map Prod.fst).map (fieldAddr t base) := by
    rw [List.map_map]
    rfl
  refine ⟨hchk, ?_, ?_, ?_⟩
  · simp only [project_uninit_mut, hchk, resolveAddrs_ok t base _ hres]
  · obtain ⟨m', hm'⟩ := writeAssignments_succeeds t base asgns m hok
    exact ⟨m', by rw [partial_init_eq_writes hchk, hm', hmapeq]⟩
  · refine hdiv.imp ?_
    intro p q hd o1 u1 o2 u2 h1 h2
    have := offsetOf_disjoint t p q o1 o2 u1 u2 h1 h2 hd.1 hd.2
    simp only [fieldAddr, h1, h2]
    omega

/-- Witness for C3 at the divergent set `{a, b.1.0, b.2}` used by the
first test call: all three handles are produced at disjoint
addresses. -/
theorem conflict_free_set_succeeds_witness :
    ((fooAsgns1.map Prod.fst).Pairwise Diverge ∧
      ∀ pv ∈ fooAsgns1, asgnOk fooTy pv = true) ∧
    (__assert_unique (fooAsgns1.map Prod.fst) = [] ∧
      project_uninit_mut fooTy 0 (fun _ => 0) (fooAsgns1.map Prod.fst) =
        Except.ok ((fun _ => 0), (fooAsgns1.map Prod.fst).map (fieldAddr fooTy 0)) ∧
      (∃ m', partial_init fooTy 0 (fun _ => 0) fooAsgns1 =
        Except.ok (m', (fooAsgns1.map Prod.fst).map (fieldAddr fooTy 0))) ∧
      (fooAsgns1.map Prod.fst).Pairwise (fun p q => ∀ o1 u1 o2 u2,
        offsetOf fooTy p = some (o1, u1) → offsetOf fooTy q = some (o2, u2) →
        fieldAddr fooTy 0 p + u1.size ≤ fieldAddr fooTy 0 q ∨
          fieldAddr fooTy 0 q + u2.size ≤ fieldAddr fooTy 0 p)) :=
  ⟨⟨by decide, by decide⟩,
    conflict_free_set_succeeds fooTy 0 (fun _ => 0) fooAsgns1 (by decide) (by decide)⟩

/-- Claim C5: shared projection (`project_uninit!`) invokes no
exclusivity check — any path set whose paths name existing fields
succeeds, including overlapping or nested sets — performs no write (the
memory comes back unchanged), computes each handle as the field's true
layout offset, and neither the success nor the addresses depend on the
bytes stored in the aggregate (the conclusion holds uniformly in the
memory, with the same address list). -/
theorem shared_projection_succeeds (t : Ty) (base : Nat) (paths : List FieldPath)
    (hres : ∀ p ∈ paths, (offsetOf t p).isSome = true) :
    ∀ m : Mem,
      project_uninit t base m paths = Except.ok (m, paths.map (fieldAddr t base)) ∧
      ∀ p ∈ paths, ∀ o u, offsetOf t p = some (o, u) → fieldAddr t base p = base + o := by
  intro m
  refine ⟨?_, ?_⟩
  · simp only [project_uninit, resolveAddrs_ok t base paths hres]
  · intro p _ o u ho
    simp [fieldAddr, ho]

/-- Witness for C5 at the overlapping shared set `{a, b, b.1}` of the
test scenario (field `b` and its subfield `b.1` simultaneously):
projection succeeds with the true offsets 0, 8 and 12. -/
theorem shared_projection_succeeds_witness :
    (∀ p ∈ [[0], [1], [1, 1]], (offsetOf fooTy p).isSome = true) ∧
    (∀ m : Mem,
      project_uninit fooTy 0 m [[0], [1], [1, 1]] = Except.ok (m, [0, 8, 12]) ∧
      ∀ p ∈ [[0], [1], [1, 1]], ∀ o u, offsetOf fooTy p = some (o, u) →
        fieldAddr fooTy 0 p = 0 + o) :=
  ⟨by decide, shared_projection_succeeds fooTy 0 [[0], [1], [1, 1]] (by decide)⟩

/-- Claim C9: for each of the four macro families, the single-path call
form (defined in the source by delegating to the multi-path form and
taking `.0`) coincides with the first — and only — component of the
multi-path form applied to the singleton path set, for every aggregate,
path and value. -/
theorem single_path_form_agrees (t : Ty) (base : Nat) (m : Mem) (p : FieldPath) (v : Val) :
    project_uninit t base m [p] =
      Except.map (fun r => (r.1, [r.2])) (project_uninit_single t base m p) ∧
    project_uninit_mut t base m [p] =
      Except.map (fun r => (r.1, [r.2])) (project_uninit_mut_single t base m p) ∧
    partial_init t base m [(p, v)] =
      Except.map (fun r => (r.1, [r.2])) (partial_init_single t base m p v) ∧
    project_ptr t base [p] = Except.map (fun h => [h]) (project_ptr_single t base p) ∧
    project_ptr_mut t base [p] =
      Except.map (fun h => [h]) (project_ptr_mut_single t base p) := by
  have hchk : __assert_unique [p] = [] := rfl
  refine ⟨?_, ?_, ?_, ?_, ?_⟩
  · cases ho : offsetOf t p with
    | none =>
      simp [project_uninit, resolveAddrs, project_uninit_single, ho, Except.map]
    | some x =>
      obtain ⟨o, u⟩ := x
      simp [project_uninit, resolveAddrs, project_uninit_single, ho, Except.map]
  · cases ho : offsetOf t p with
    | none =>
      simp [project_uninit_mut, hchk, resolveAddrs, project_uninit_mut_single, ho, Except.map]
    | some x =>
      obtain ⟨o, u⟩ := x
      simp [project_uninit_mut, hchk, resolveAddrs, project_uninit_mut_single, ho, Except.map]
  · cases ho : offsetOf t p with
    | none =>
      simp [partial_init, writeAssignments, partial_init_single, ho, hchk, Except.map]
    | some x =>
      obtain ⟨o, u⟩ := x
      by_cases hty : hasTy v u
      · simp [partial_init, writeAssignments, partial_init_single, ho, hty, hchk, Except.map]
      · simp [partial_init, writeAssignments, partial_init_single, ho, hty, hchk, Except.map]
  · cases ho : offsetOf t p with
    | none => simp [project_ptr, resolveAddrs, project_ptr_single, ho, Except.map]
    | some x =>
      obtain ⟨o, u⟩ := x
      simp [project_ptr, resolveAddrs, project_ptr_single, ho, Except.map]
  · cases ho : offsetOf t p with
    | none => simp [project_ptr_mut, resolveAddrs, project_ptr_mut_single, ho, Except.map]
    | some x =>
      obtain ⟨o, u⟩ := x
      simp [project_ptr_mut, resolveAddrs, project_ptr_mut_single, ho, Except.map]

/-- Claim C4: a successful `partial_init!` writes each value with a raw
store at the field's computed address before producing the handle for it
— the handle is exactly that address, and reading the handle's byte
range immediately after the call yields precisely the byte image of the
value just assigned, a result that mentions only the value and hence is
independent of the bit pattern previously held at the destination (which
is neither read nor dropped by `writeBytes`). -/
theorem partial_init_readback (t : Ty) (base : Nat) (m : Mem)
    (asgns : List (FieldPath × Val)) (m' : Mem) (hs : List Nat)
    (h : partial_init t base m asgns = Except.ok (m', hs)) :
    hs = (asgns.map Prod.fst).map (fieldAddr t base) ∧
      ∀ pv ∈ asgns, ∀ o u, offsetOf t pv.1 = some (o, u) →
        fieldAddr t base pv.1 = base + o ∧
        readBytes m' (base + o) u.size = Val.encode pv.2 := by
  obtain ⟨hchk, hw⟩ := partial_init_ok_elim h
  have hdiv := pairwise_diverge_of_checker hchk
  constructor
  · obtain ⟨m2, hm2⟩ := writeAssignments_succeeds t base asgns m
      (writeAssignments_ok t base asgns m m' hs hw)
    rw [hw] at hm2
    simp only [Except.ok.injEq, Prod.mk.injEq] at hm2
    rw [hm2.2, List.map_map]
    rfl
  · intro pv hpv o u ho
    exact ⟨by simp [fieldAddr, ho],
      writeAssignments_readback t base asgns m m' hs hdiv hw pv hpv o u ho⟩

/-- Witness for C4 at the first test call (`a = 7`, `b.1.0 = 240`,
`b.2 = "hello"`) on zeroed memory: the handles are the field addresses
0, 12 and 14 and each reads back its assigned bytes. -/
theorem partial_init_readback_witness :
    partial_init fooTy 0 (fun _ => 0) fooAsgns1 = Except.ok (fooMem1 (fun _ => 0), [0, 12, 14]) ∧
      ([0, 12, 14] = (fooAsgns1.map Prod.fst).map (fieldAddr fooTy 0) ∧
        ∀ pv ∈ fooAsgns1, ∀ o u, offsetOf fooTy pv.1 = some (o, u) →
          fieldAddr fooTy 0 pv.1 = 0 + o ∧
          readBytes (fooMem1 (fun _ => 0)) (0 + o) u.size = Val.encode pv.2) :=
  ⟨rfl, partial_init_readback fooTy 0 (fun _ => 0) fooAsgns1 (fooMem1 (fun _ => 0))
    [0, 12, 14] rfl⟩

/-- Counterexample to claim C10 as stated: after initializing `a` and
`b.1.0` (per the claim's own example), the field `b` — which is named by
no path of the call — does not retain its prior bytes: byte 12 inside
`b`'s range changes from 0 to 240. -/
theorem partial_init_parent_field_changed :
    partial_init fooTy 0 (fun _ => 0) [([0], v7), ([1, 1, 0], v240)] =
      Except.ok (fooMemB, [0, 12]) ∧
    (([1] : FieldPath) ≠ [0] ∧ ([1] : FieldPath) ≠ [1, 1, 0]) ∧
    offsetOf fooTy [1] =
      some (8, Ty.agg [Ty.prim 4, Ty.agg [Ty.prim 1, Ty.prim 1], Ty.prim 16]) ∧
    readBytes fooMemB 8 22 ≠ readBytes (fun _ => 0) 8 22 := by
  exact ⟨rfl, by decide, rfl, by decide⟩

/-- Claim C10 (amended): `partial_init!` mutates only the storage of
the named fields: every field whose path diverges from (is neither a
prefix nor an extension of) every assigned path retains its exact prior
bytes after the call. -/
theorem partial_init_frame_effect (t : Ty) (base : Nat) (m : Mem)
    (asgns : List (FieldPath × Val)) (m' : Mem) (hs : List Nat)
    (r : FieldPath) (o : Nat) (u : Ty)
    (h : partial_init t base m asgns = Except.ok (m', hs))
    (hr : offsetOf t r = some (o, u))
    (hdiv : ∀ pv ∈ asgns, Diverge pv.1 r) :
    readBytes m' (base + o) u.size = readBytes m (base + o) u.size := by
  obtain ⟨hchk, hw⟩ := partial_init_ok_elim h
  apply readBytes_congr
  intro a h1 h2
  apply writeAssignments_frame t base asgns m m' hs a hw
  intro pv hpv oq uq hoq
  have hd := hdiv pv hpv
  have := offsetOf_disjoint t pv.1 r oq o uq u hoq hr hd.1 hd.2
  omega

/-- Witness for C10 (amended) at the call initializing `a` and `b.1.0`:
the divergent field `b.2` keeps its prior bytes. -/
theorem partial_init_frame_effect_witness :
    (partial_init fooTy 0 (fun _ => 0) [([0], v7), ([1, 1, 0], v240)] =
        Except.ok (fooMemB, [0, 12]) ∧
      offsetOf fooTy [1, 2] = some (14, Ty.prim 16) ∧
      (∀ pv ∈ [([0], v7), ([1, 1, 0], v240)], Diverge pv.1 [1, 2])) ∧
    readBytes fooMemB (0 + 14) (Ty.prim 16).size =
      readBytes (fun _ => 0) (0 + 14) (Ty.prim 16).size :=
  ⟨⟨rfl, rfl, by decide⟩,
    partial_init_frame_effect fooTy 0 (fun _ => 0) [([0], v7), ([1, 1, 0], v240)]
      fooMemB [0, 12] [1, 2] 14 (Ty.prim 16) rfl rfl (by decide)⟩

theorem sizeList_append (xs ys : List Ty) :
    Ty.sizeList (xs ++ ys) = Ty.sizeList xs + Ty.sizeList ys := by
  induction xs with
  | nil => simp [Ty.sizeList]
  | cons t ts ih =>
    show Ty.size t + Ty.sizeList (ts ++ ys) = Ty.size t + Ty.sizeList ts + Ty.sizeList ys
    rw [ih]
    omega

/-- The field just after the prefix `fs0` sits at offset
`sizeList fs0`. -/
theorem offsetOfAt_length_append (fs0 : List Ty) (t : Ty) (ts : List Ty) :
    offsetOfAt (fs0 ++ t :: ts) fs0.length [] = some (Ty.sizeList fs0, t) := by
  induction fs0 with
  | nil => simp [offsetOfAt, offsetOf, Ty.sizeList]
  | cons f fs ih =>
    simp only [List.cons_append, List.length_cons, offsetOfAt, List.append_eq, ih,
      Ty.sizeList]

/-- Any field reached at an index past the prefix `fs0` lies at an
offset of at least `sizeList fs0`. -/
theorem offsetOfAt_append_ge (gs : List Ty) :
    ∀ (fs0 : List Ty) (j : Nat) (p : FieldPath) (o : Nat) (u : Ty),
      offsetOfAt (fs0 ++ gs) (fs0.length + j) p = some (o, u) →
      Ty.sizeList fs0 ≤ o := by
  intro fs0
  induction fs0 with
  | nil =>
    intro j p o u _
    show Ty.sizeList [] ≤ o
    simp [Ty.sizeList]
  | cons f fs ih =>
    intro j p o u h
    have hidx : (f :: fs).length + j = (fs.length + j) + 1 := by
      simp only [List.length_cons]
      omega
    rw [hidx, List.cons_append] at h
    simp only [offsetOfAt] at h
    cases ho : offsetOfAt (fs ++ gs) (fs.length + j) p with
    | none => rw [ho] at h; simp at h
    | some x =>
      obtain ⟨o', u'⟩ := x
      rw [ho] at h
      simp only [Option.some.injEq, Prod.mk.injEq] at h
      obtain ⟨h1, rfl⟩ := h
      have := ih j p o' u' ho
      simp only [Ty.sizeList]
      omega

theorem mem_topAssignments : ∀ (vs : List Val) (k : Nat) (pv : FieldPath × Val),
    pv ∈ topAssignments k vs → ∃ i, k ≤ i ∧ pv.1 = [i] := by
  intro vs
  induction vs with
  | nil => intro k pv h; simp [topAssignments] at h
  | cons v vs ih =>
    intro k pv h
    simp only [topAssignments, List.mem_cons] at h
    rcases h with rfl | h
    · exact ⟨k, Nat.le_refl k, rfl⟩
    · obtain ⟨i, hi, hp⟩ := ih (k + 1) pv h
      exact ⟨i, by omega, hp⟩

/-- Distinct single-token paths diverge, so one assignment per
top-level field always passes the checker. -/
theorem topAssignments_pairwise : ∀ (vs : List Val) (k : Nat),
    ((topAssignments k vs).map Prod.fst).Pairwise Diverge := by
  intro vs
  induction vs with
  | nil => intro k; simp [topAssignments]
  | cons v vs ih =>
    intro k
    simp only [topAssignments, List.map_cons, List.pairwise_cons]
    refine ⟨?_, ih (k + 1)⟩
    intro q hq
    obtain ⟨pv, hpv, rfl⟩ := List.mem_map.mp hq
    obtain ⟨i, hi, hp⟩ := mem_topAssignments vs (k + 1) pv hpv
    rw [hp]
    constructor
    · intro hc
      obtain ⟨heq, _⟩ := List.cons_prefix_cons.mp hc
      have heq' : (k : Nat) = i := heq
      omega
    · intro hc
      obtain ⟨heq, _⟩ := List.cons_prefix_cons.mp hc
      have heq' : (i : Nat) = k := heq
      omega

/-- Round trip over the top-level fields: initializing every field of
the aggregate (one assignment per field, past an already-handled prefix
`fs0`) succeeds and makes the fields' byte region read back as exactly
the concatenated byte images of the assigned values. -/
theorem writeAssignments_round_trip (fs : List Ty) :
    ∀ (vals : List Val) (fs0 : List Ty) (base : Nat) (m : Mem),
      hasTyList vals fs = true →
      ∃ m', writeAssignments (Ty.agg (fs0 ++ fs)) base m (topAssignments fs0.length vals) =
          Except.ok (m', (topAssignments fs0.length vals).map
            (fun pv => fieldAddr (Ty.agg (fs0 ++ fs)) base pv.1)) ∧
        readBytes m' (base + Ty.sizeList fs0) (Ty.sizeList fs) = Val.encodeList vals := by
  induction fs with
  | nil =>
    intro vals fs0 base m hty
    cases vals with
    | nil => exact ⟨m, rfl, rfl⟩
    | cons v vs => simp [hasTyList] at hty
  | cons t ts ih =>
    intro vals fs0 base m hty
    cases vals with
    | nil => simp [hasTyList] at hty
    | cons v vs =>
      simp only [hasTyList, Bool.and_eq_true] at hty
      obtain ⟨hty1, hty2⟩ := hty
      have hlist : (fs0 ++ [t]) ++ ts = fs0 ++ t :: ts := by simp
      have hlen : (fs0 ++ [t]).length = fs0.length + 1 := by simp
      have hS : Ty.sizeList (fs0 ++ [t]) = Ty.sizeList fs0 + Ty.size t := by
        rw [sizeList_append]
        simp [Ty.sizeList]
      have hoff : offsetOf (Ty.agg (fs0 ++ t :: ts)) [fs0.length] =
          some (Ty.sizeList fs0, t) := by
        simp only [offsetOf]
        exact offsetOfAt_length_append fs0 t ts
      obtain ⟨m', hw', hr'⟩ := ih vs (fs0 ++ [t]) base
        (writeBytes m (base + Ty.sizeList fs0) (Val.encode v)) hty2
      rw [hlist, hlen] at hw'
      rw [hS] at hr'
      have hframe : ∀ a, base + Ty.sizeList fs0 ≤ a →
          a < base + Ty.sizeList fs0 + Ty.size t →
          m' a = writeBytes m (base + Ty.sizeList fs0) (Val.encode v) a := by
        intro a h1 h2
        apply writeAssignments_frame (Ty.agg (fs0 ++ t :: ts)) base
          (topAssignments (fs0.length + 1) vs) _ m' _ a hw'
        intro pv hpv oq uq hoq
        obtain ⟨i, hi, hp1⟩ := mem_topAssignments vs (fs0.length + 1) pv hpv
        rw [hp1] at hoq
        simp only [offsetOf] at hoq
        have hoq' : offsetOfAt ((fs0 ++ [t]) ++ ts)
            ((fs0 ++ [t]).length + (i - (fs0.length + 1))) [] = some (oq, uq) := by
          rw [hlist, hlen]
          have hieq : fs0.length + 1 + (i - (fs0.length + 1)) = i := by omega
          rw [hieq]
          exact hoq
        have hge := offsetOfAt_append_ge ts (fs0 ++ [t]) (i - (fs0.length + 1)) [] oq uq hoq'
        rw [hS] at hge
        left
        omega
      have hhead : readBytes m' (base + Ty.sizeList fs0) (Ty.size t) = Val.encode v := by
        rw [readBytes_congr (Ty.size t) m'
          (writeBytes m (base + Ty.sizeList fs0) (Val.encode v)) (base + Ty.sizeList fs0)
          (fun a h1 h2 => hframe a h1 h2)]
        rw [← encode_length v t hty1, readBytes_writeBytes]
      refine ⟨m', ?_, ?_⟩
      · simp only [topAssignments, writeAssignments, hoff]
        rw [if_pos hty1]
        simp only [hw', List.map_cons]
        have haddr : fieldAddr (Ty.agg (fs0 ++ t :: ts)) base [fs0.length] =
            base + Ty.sizeList fs0 := by
          simp [fieldAddr, hoff]
        rw [haddr]
      · show readBytes m' (base + Ty.sizeList fs0) (Ty.size t + Ty.sizeList ts) = _
        rw [readBytes_add, hhead]
        have hadd : base + Ty.sizeList fs0 + Ty.size t = base + (Ty.sizeList fs0 + Ty.size t) := by
          omega
        rw [hadd, hr']
        rfl

/-- Counterexample to claim C6 as stated: running the claim's scenario
on zeroed memory — first call `a = 7`, `b.1.0 = 240`, `b.2 = "hello"`,
then `a = 12` through a single-field call, then the second call
`b.0 = -10`, `b.1 = (17, -29)` — the final committed bytes are those of
`{a: 12, b: (-10, (17, -29), "hello")}`, not of the claimed
`{a: 7, ...}`: field `a` reads back 12, not 7. -/
theorem partial_init_scenario_final_a :
    partial_init fooTy 0 (fun _ => 0) fooAsgns1 =
      Except.ok (fooMem1 (fun _ => 0), [0, 12, 14]) ∧
    partial_init_single fooTy 0 (fooMem1 (fun _ => 0)) [0] v12 =
      Except.ok (fooMem2 (fun _ => 0), 0) ∧
    partial_init fooTy 0 (fooMem2 (fun _ => 0)) fooAsgns2 =
      Except.ok (fooMem3 (fun _ => 0), [8, 12]) ∧
    readBytes (fooMem3 (fun _ => 0)) 0 30 =
      Val.encode (Val.agg [v12, Val.agg [vM10, v1729, vHello]]) ∧
    readBytes (fooMem3 (fun _ => 0)) 0 30 ≠
      Val.encode (Val.agg [v7, Val.agg [vM10, v1729, vHello]]) ∧
    readBytes (fooMem3 (fun _ => 0)) 0 8 = Val.encode v12 ∧
    Val.encode v12 ≠ Val.encode v7 :=
  ⟨rfl, rfl, rfl, by decide, by decide, by decide, by decide⟩

/-- Claim C6 (amended): on an arbitrarily garbled uninitialized
aggregate of the test shape, the first call returns handles reading
back as `(7, 240, "hello")`; after also setting `a = 12` via a later
single-field call and initializing `b.0 = -10`, `b.1 = (17, -29)`, the
final committed value equals `{a: 12, b: (-10, (17, -29), "hello")}`
(the test's own expected value).  More generally, initializing every
top-level field of any aggregate with well-typed values and finalizing
yields exactly the value built by constructing the aggregate directly
from those field values. -/
theorem partial_init_round_trip (m0 : Mem) (fs : List Ty) (vals : List Val)
    (hty : hasTyList vals fs = true) :
    (partial_init fooTy 0 m0 fooAsgns1 = Except.ok (fooMem1 m0, [0, 12, 14]) ∧
      readBytes (fooMem1 m0) 0 8 = Val.encode v7 ∧
      readBytes (fooMem1 m0) 12 1 = Val.encode v240 ∧
      readBytes (fooMem1 m0) 14 16 = Val.encode vHello ∧
      partial_init_single fooTy 0 (fooMem1 m0) [0] v12 = Except.ok (fooMem2 m0, 0) ∧
      partial_init fooTy 0 (fooMem2 m0) fooAsgns2 = Except.ok (fooMem3 m0, [8, 12]) ∧
      readBytes (fooMem3 m0) 8 4 = Val.encode vM10 ∧
      readBytes (fooMem3 m0) 12 2 = Val.encode v1729 ∧
      readBytes (fooMem3 m0) 0 30 =
        Val.encode (Val.agg [v12, Val.agg [vM10, v1729, vHello]])) ∧
    (∃ m', partial_init (Ty.agg fs) 0 m0 (topAssignments 0 vals) =
        Except.ok (m', (topAssignments 0 vals).map
          (fun pv => fieldAddr (Ty.agg fs) 0 pv.1)) ∧
      readBytes m' 0 (Ty.sizeList fs) = Val.encode (Val.agg vals)) := by
  constructor
  · exact ⟨rfl, rfl, rfl, rfl, rfl, rfl, rfl, rfl, rfl⟩
  · have hchk := checker_of_pairwise_diverge (topAssignments_pairwise vals 0)
    obtain ⟨m', hw, hr⟩ := writeAssignments_round_trip fs vals [] 0 m0 hty
    refine ⟨m', ?_, ?_⟩
    · rw [partial_init_eq_writes hchk]
      simpa using hw
    · simpa [Ty.sizeList, Val.encode] using hr

/-- Witness for C6 (amended) at zeroed memory and the one-field
aggregate `{x: u8}` with value 5 for the general clause. -/
theorem partial_init_round_trip_witness :
    hasTyList [Val.prim [5]] [Ty.prim 1] = true ∧
    ((partial_init fooTy 0 (fun _ => 9) fooAsgns1 =
        Except.ok (fooMem1 (fun _ => 9), [0, 12, 14]) ∧
      readBytes (fooMem1 (fun _ => 9)) 0 8 = Val.encode v7 ∧
      readBytes (fooMem1 (fun _ => 9)) 12 1 = Val.encode v240 ∧
      readBytes (fooMem1 (fun _ => 9)) 14 16 = Val.encode vHello ∧
      partial_init_single fooTy 0 (fooMem1 (fun _ => 9)) [0] v12 =
        Except.ok (fooMem2 (fun _ => 9), 0) ∧
      partial_init fooTy 0 (fooMem2 (fun _ => 9)) fooAsgns2 =
        Except.ok (fooMem3 (fun _ => 9), [8, 12]) ∧
      readBytes (fooMem3 (fun _ => 9)) 8 4 = Val.encode vM10 ∧
      readBytes (fooMem3 (fun _ => 9)) 12 2 = Val.encode v1729 ∧
      readBytes (fooMem3 (fun _ => 9)) 0 30 =
        Val.encode (Val.agg [v12, Val.agg [vM10, v1729, vHello]])) ∧
    (∃ m', partial_init (Ty.agg [Ty.prim 1]) 0 (fun _ => 9)
        (topAssignments 0 [Val.prim [5]]) =
        Except.ok (m', (topAssignments 0 [Val.prim [5]]).map
          (fun pv => fieldAddr (Ty.agg [Ty.prim 1]) 0 pv.1)) ∧
      readBytes m' 0 (Ty.sizeList [Ty.prim 1]) =
        Val.encode (Val.agg [Val.prim [5]]))) :=
  ⟨by decide, partial_init_round_trip (fun _ => 9) [Ty.prim 1] [Val.prim [5]] (by decide)⟩
